import Mathlib

/-!
Verification of the backtest analytics layer of the Freqtrade analysis
notebook: the equity-curve cell (In[20]), the trade-parallelism analysis
and the grouped trade summary.

The equity-curve cell is embedded directly from the notebook source:

  equity = 0
  equity_daily = []
  for daily_profit in profits:
      equity_daily.append(equity)
      equity += float(daily_profit)

Profit values are modelled as exact rationals; `float(x)` accepts both
numbers and numeric strings, which `PyVal` captures.
-/

/-- A Python value fed to `float(...)` by the equity cell: either a number
or a numeric string; in both cases the payload is the parsed value. -/
inductive PyVal where
  | num (q : ℚ)
  | str (q : ℚ)
deriving DecidableEq

/-- `float(daily_profit)`: coerce a number or numeric string to its value. -/
def pyFloat : PyVal → ℚ
  | .num q => q
  | .str q => q

/-- One element of `strategy_stats['daily_profit']`: a `(date, profit_abs)`
pair.  Dates are modelled as natural numbers (day ordinals). -/
structure DateProfit where
  date : ℕ
  profit : PyVal
deriving DecidableEq

/-- `dates`: the first components, as collected by the cell's first loop. -/
def dates (dps : List DateProfit) : List ℕ := dps.map (·.date)

/-- `profits`: the second components, as collected by the cell's first loop. -/
def profits (dps : List DateProfit) : List PyVal := dps.map (·.profit)

/-- The equity loop: append the running total, then add the day's profit. -/
def equityLoop (equity : ℚ) : List PyVal → List ℚ
  | [] => []
  | daily_profit :: rest => equity :: equityLoop (equity + pyFloat daily_profit) rest

/-- `equity_daily` as produced by the cell, starting from `equity = 0`. -/
def equity_daily (ps : List PyVal) : List ℚ := equityLoop 0 ps

/-- The dataframe built at the end of the cell: dates paired with the
equity values. -/
def equityCurve (dps : List DateProfit) : List (ℕ × ℚ) :=
  (dates dps).zip (equity_daily (profits dps))

theorem equityLoop_length (e : ℚ) (ps : List PyVal) :
    (equityLoop e ps).length = ps.length := by
  induction ps generalizing e with
  | nil => rfl
  | cons p rest ih => simp [equityLoop, ih]

theorem equityLoop_eq (e : ℚ) (ps : List PyVal) :
    equityLoop e ps =
      (List.range ps.length).map (fun i => e + ((ps.take i).map pyFloat).sum) := by
  induction ps generalizing e with
  | nil => rfl
  | cons p rest ih =>
    rw [equityLoop, ih]
    simp only [List.length_cons, List.range_succ_eq_map, List.map_cons, List.map_map,
      List.take_zero, List.map_nil, List.sum_nil, add_zero]
    refine congrArg₂ List.cons rfl ?_
    refine List.map_congr_left fun i _ => ?_
    simp [Function.comp, List.take_succ_cons]
    ring

/-- C1: at each index i the equity value equals the sum of `profit_abs`
over indices 0..i-1; in particular daily profits [10, -5, 20] yield
equity values [0, 10, 5]. -/
theorem equity_values_are_prior_profit_sums :
    (∀ dps : List DateProfit,
      equity_daily (profits dps) =
        (List.range dps.length).map
          (fun i => (((profits dps).take i).map pyFloat).sum))
    ∧ equityCurve [⟨1, .num 10⟩, ⟨2, .num (-5)⟩, ⟨3, .num 20⟩] =
        [(1, 0), (2, 10), (3, 5)] := by
  constructor
  · intro dps
    have h := equityLoop_eq 0 (profits dps)
    simpa [equity_daily, profits] using h
  · norm_num [equityCurve, equity_daily, equityLoop, dates, profits, pyFloat]

/-- C9: the output has the same length as the input and preserves the
input dates position by position; no day is skipped or interpolated. -/
theorem equity_curve_preserves_length_and_dates :
    ∀ dps : List DateProfit,
      (equityCurve dps).length = dps.length ∧
      (equityCurve dps).map Prod.fst = dates dps := by
  intro dps
  have hlen : (equity_daily (profits dps)).length = dps.length := by
    simp [equity_daily, equityLoop_length, profits]
  have hdates : (dates dps).length = dps.length := by simp [dates]
  constructor
  · simp [equityCurve, List.length_zip, hlen, hdates]
  · exact List.map_fst_zip _ _ (by rw [hlen, hdates])

/-- C5: empty input yields empty output with no error, and a single-element
input yields exactly one point with equity 0. -/
theorem equity_curve_empty_and_singleton :
    equityCurve [] = [] ∧ ∀ (d : ℕ) (p : PyVal), equityCurve [⟨d, p⟩] = [(d, 0)] := by
  exact ⟨rfl, fun d p => rfl⟩

/-- The notebook globals touched by the equity cell: the running total
`equity` and the accumulator list `equity_daily`. -/
structure NotebookState where
  equity : ℚ
  equity_daily : List ℚ
deriving DecidableEq

/-- The body of the equity loop acting on the globals: first append the
current `equity`, then add the day's profit. -/
def equityCellLoop (s : NotebookState) : List PyVal → NotebookState
  | [] => s
  | daily_profit :: rest =>
      equityCellLoop ⟨s.equity + pyFloat daily_profit, s.equity_daily ++ [s.equity]⟩ rest

/-- Running the whole cell from an arbitrary prior state of the globals:
the cell begins by reassigning `equity = 0` and `equity_daily = []`. -/
def runEquityCell (_s : NotebookState) (ps : List PyVal) : NotebookState :=
  equityCellLoop ⟨0, []⟩ ps

theorem equityCellLoop_spec (e : ℚ) (acc : List ℚ) (ps : List PyVal) :
    equityCellLoop ⟨e, acc⟩ ps = ⟨e + (ps.map pyFloat).sum, acc ++ equityLoop e ps⟩ := by
  induction ps generalizing e acc with
  | nil => simp [equityCellLoop, equityLoop]
  | cons p rest ih => simp [equityCellLoop, equityLoop, ih, add_assoc]

theorem foldl_pair_equity (e : ℚ) (acc : List ℚ) (ps : List PyVal) :
    (ps.foldl (fun a p => (a.1 + pyFloat p, a.2 ++ [a.1])) (e, acc)).2 =
      acc ++ equityLoop e ps := by
  induction ps generalizing e acc with
  | nil => simp [equityLoop]
  | cons p rest ih => simp [equityLoop, ih]

/-- C6: the cell is a pure computation with explicitly threaded state:
running it from any two prior global states gives the same result, running
it twice gives the same result as once, and the produced list is a pure
left fold starting from `(0, [])`. -/
theorem equity_cell_idempotent_pure :
    ∀ (s t : NotebookState) (ps : List PyVal),
      runEquityCell s ps = runEquityCell t ps ∧
      runEquityCell (runEquityCell s ps) ps = runEquityCell s ps ∧
      (runEquityCell s ps).equity_daily = equity_daily ps ∧
      equity_daily ps =
        (ps.foldl (fun a p => (a.1 + pyFloat p, a.2 ++ [a.1])) ((0 : ℚ), ([] : List ℚ))).2 := by
  intro s t ps
  refine ⟨rfl, rfl, ?_, ?_⟩
  · simp [runEquityCell, equityCellLoop_spec, equity_daily]
  · simp [foldl_pair_equity, equity_daily]

/-- Some adjacent pair of the daily-profit series is inverted: the later
entry's date precedes the earlier entry's date. -/
def hasAdjacentInversion (dps : List DateProfit) : Prop :=
  ∃ i, i + 1 < dps.length ∧
    (dps.getD (i + 1) ⟨0, .num 0⟩).date < (dps.getD i ⟨0, .num 0⟩).date

/-- C3 counterexample: the equity cell performs no ordering check — on the
descending series [(2, 5), (1, 7)] it produces the full cumulative output
[(2, 0), (1, 5)] instead of rejecting the input. -/
theorem equity_unordered_counterexample :
    equityCurve [⟨2, .num 5⟩, ⟨1, .num 7⟩] = [(2, 0), (1, 5)] ∧
    ([(2, 0), (1, 5)] : List (ℕ × ℚ)) ≠ [] := by
  constructor
  · norm_num [equityCurve, equity_daily, equityLoop, dates, profits, pyFloat]
  · simp

/-- C3 amended: the equity cell does not check date ordering — a series
that is not ascending by date is processed like any other, producing the
full-length cumulative output (no error is raised). -/
theorem equity_no_ordering_check (dps : List DateProfit)
    (_h : hasAdjacentInversion dps) :
    (equityCurve dps).length = dps.length ∧
    equity_daily (profits dps) =
      (List.range dps.length).map
        (fun i => (((profits dps).take i).map pyFloat).sum) := by
  constructor
  · have hlen : (equity_daily (profits dps)).length = dps.length := by
      simp [equity_daily, equityLoop_length, profits]
    simp [equityCurve, List.length_zip, hlen, dates]
  · have h0 := equityLoop_eq 0 (profits dps)
    simpa [equity_daily, profits] using h0

theorem equity_no_ordering_check_witness :
    hasAdjacentInversion [⟨2, .num 5⟩, ⟨1, .num 7⟩] ∧
    (equityCurve [⟨2, .num 5⟩, ⟨1, .num 7⟩]).length = 2 := by
  have hinv : hasAdjacentInversion [⟨2, .num 5⟩, ⟨1, .num 7⟩] :=
    ⟨0, by norm_num, by norm_num⟩
  exact ⟨hinv, (equity_no_ordering_check _ hinv).1⟩

/-- C10: numeric strings are coerced with `float()` exactly like numbers,
and successive outputs satisfy `equity[i+1] = equity[i] + float(profits[i])`
with strictly left-to-right accumulation. -/
theorem equity_float_coercion_and_step :
    (∀ qs : List ℚ, equity_daily (qs.map PyVal.str) = equity_daily (qs.map PyVal.num)) ∧
    (∀ (ps : List PyVal) (i : ℕ), i + 1 < ps.length →
      (equity_daily ps).getD (i + 1) 0 =
        (equity_daily ps).getD i 0 + pyFloat (ps.getD i (PyVal.num 0))) := by
  constructor
  · intro qs
    suffices h : ∀ e, equityLoop e (qs.map PyVal.str) = equityLoop e (qs.map PyVal.num) by
      exact h 0
    induction qs with
    | nil => intro e; rfl
    | cons q rest ih => intro e; simp [equityLoop, pyFloat, ih]
  · intro ps i h
    have hlen : (equity_daily ps).length = ps.length := equityLoop_length 0 ps
    have h1 : i + 1 < (equity_daily ps).length := by omega
    have h0 : i < (equity_daily ps).length := by omega
    have hi : i < ps.length := by omega
    rw [List.getD_eq_getElem _ _ h1, List.getD_eq_getElem _ _ h0,
      List.getD_eq_getElem _ _ hi]
    simp only [equity_daily, equityLoop_eq 0 ps, List.getElem_map, List.getElem_range,
      zero_add]
    have hmap : i < (ps.map pyFloat).length := by simpa using hi
    have := List.sum_take_succ (ps.map pyFloat) i hmap
    simp only [List.map_take] at this ⊢
    rw [this]
    simp

theorem equity_float_coercion_and_step_witness :
    (equity_daily [PyVal.str 3, PyVal.num 4]).getD 1 0 =
      (equity_daily [PyVal.str 3, PyVal.num 4]).getD 0 0 +
        pyFloat (([PyVal.str 3, PyVal.num 4]).getD 0 (PyVal.num 0)) :=
  equity_float_coercion_and_step.2 [PyVal.str 3, PyVal.num 4] 0 (by norm_num)

/-- Modelled from the spec: the Trade record consumed by the parallelism
analysis and the grouped summary.  The implementations of
`analyze_trade_parallelism` and of the pandas group-by live in external
libraries; the notebook contains only their call sites, so the record and
the operations are modelled from the specification.  Timestamps are
naturals (multiples of a base time unit); `close_time` is absent for a
still-open trade. -/
structure Trade where
  pair : String
  open_time : ℕ
  close_time : Option ℕ
  profit_ratio : ℚ
  profit_abs : ℚ
  sell_reason : String
deriving DecidableEq

/-- Modelled from the spec: the error taxonomy of §7. -/
inductive AnalysisError where
  | unorderedInputError
  | invalidIntervalError
  | emptyGridError
deriving DecidableEq

/-- Modelled from the spec: the containment rule — a trade is open at
time t iff `open_time <= t < close_time`; a trade with no `close_time` is
open at every t with `open_time <= t`. -/
def openAt (t : Trade) (time : ℕ) : Bool :=
  decide (t.open_time ≤ time) &&
    (match t.close_time with
     | some c => decide (time < c)
     | none => true)

def natListMin : List ℕ → ℕ
  | [] => 0
  | x :: xs => xs.foldl Nat.min x

def natListMax (l : List ℕ) : ℕ := l.foldl Nat.max 0

/-- All timestamps observed on one trade record. -/
def tradeTimes (t : Trade) : List ℕ := t.open_time :: t.close_time.toList

/-- Modelled from the spec: the latest observed timestamp across the whole
input. -/
def latestObserved (trades : List Trade) : ℕ :=
  natListMax ((trades.map tradeTimes).flatten)

/-- Modelled from the spec: the grid starts at the earliest `open_time`. -/
def gridStart (trades : List Trade) : ℕ :=
  natListMin (trades.map (·.open_time))

/-- Modelled from the spec: the grid ends at the latest of `close_time`
or, for still-open trades, the latest observed timestamp. -/
def gridEnd (trades : List Trade) : ℕ :=
  natListMax (trades.map (fun t => t.close_time.getD (latestObserved trades)))

/-- Modelled from the spec: the dense regular grid from `gridStart` to
`gridEnd` inclusive, stepped by the period; empty for no trades. -/
def grid (trades : List Trade) (period : ℕ) : List ℕ :=
  match trades with
  | [] => []
  | _ :: _ =>
      (List.range ((gridEnd trades - gridStart trades) / period + 1)).map
        (fun k => gridStart trades + k * period)

/-- Number of trades open at a given instant. -/
def countOpen (trades : List Trade) (time : ℕ) : ℕ :=
  (trades.filter (fun t => openAt t time)).length

/-- Modelled from the spec: the ParallelismAnalyzer — validate every
interval, then emit one `(timestamp, open_trade_count)` point per grid
step; fail fast with `invalidIntervalError` when some `close_time`
precedes its `open_time`. -/
def analyze_trade_parallelism (trades : List Trade) (period : ℕ) :
    Except AnalysisError (List (ℕ × ℕ)) :=
  if trades.any (fun t =>
      match t.close_time with
      | some c => decide (c < t.open_time)
      | none => false) then
    .error .invalidIntervalError
  else
    .ok ((grid trades period).map (fun ts => (ts, countOpen trades ts)))

/-- C8: any trade whose `close_time` precedes its `open_time` makes the
analyzer fail fast with `invalidIntervalError`, producing no output. -/
theorem invalid_interval_fails_fast (trades : List Trade) (period : ℕ)
    (t : Trade) (ht : t ∈ trades) (c : ℕ) (hc : t.close_time = some c)
    (hlt : c < t.open_time) :
    analyze_trade_parallelism trades period = .error .invalidIntervalError := by
  have hany : (trades.any (fun t =>
      match t.close_time with
      | some c => decide (c < t.open_time)
      | none => false)) = true :=
    List.any_eq_true.mpr ⟨t, ht, by simp [hc, hlt]⟩
  simp [analyze_trade_parallelism, hany]

theorem invalid_interval_fails_fast_witness :
    analyze_trade_parallelism [⟨"BTC/USDT", 5, some 3, 0, 0, "roi"⟩] 1 =
      .error .invalidIntervalError :=
  invalid_interval_fails_fast _ 1 ⟨"BTC/USDT", 5, some 3, 0, 0, "roi"⟩
    (List.mem_singleton_self _) 3 rfl (by norm_num)

/-- C2: the containment rule — a trade is counted as open at t iff
`open_time <= t < close_time` (left-closed, right-open), a still-open
trade is counted at every grid point t with `open_time <= t` up to and
including the last one, and on the concrete grid {0,1,2,3} with trades
A: open=0, close=2 and B: open=1, close=3 the counts are 1, 2, 1, 0. -/
theorem parallelism_containment :
    (∀ (t : Trade) (time : ℕ),
      openAt t time = true ↔
        t.open_time ≤ time ∧ ∀ c, t.close_time = some c → time < c)
    ∧ (∀ (trades : List Trade) (period : ℕ) (t : Trade) (ts : ℕ),
        t ∈ trades → t.close_time = none → ts ∈ grid trades period →
        t.open_time ≤ ts → t ∈ trades.filter (fun u => openAt u ts))
    ∧ analyze_trade_parallelism
        [⟨"A", 0, some 2, 0, 0, "r"⟩, ⟨"B", 1, some 3, 0, 0, "r"⟩] 1 =
        .ok [(0, 1), (1, 2), (2, 1), (3, 0)] := by
  refine ⟨?_, ?_, ?_⟩
  · intro t time
    cases hct : t.close_time with
    | none => simp [openAt, hct]
    | some c => simp [openAt, hct]
  · intro trades period t ts ht hnone hts hopen
    refine List.mem_filter.mpr ⟨ht, ?_⟩
    simp [openAt, hnone, hopen]
  · rfl

theorem parallelism_containment_witness :
    (⟨"A", 0, none, 0, 0, "r"⟩ : Trade) ∈
      ([⟨"A", 0, none, 0, 0, "r"⟩] : List Trade).filter (fun u => openAt u 0) :=
  parallelism_containment.2.1 [⟨"A", 0, none, 0, 0, "r"⟩] 1
    ⟨"A", 0, none, 0, 0, "r"⟩ 0 (List.mem_singleton_self _) rfl
    (by simp [grid, gridEnd, gridStart, latestObserved, natListMax, natListMin,
      tradeTimes]) (Nat.zero_le 0)

theorem chain_range_map (s p n : ℕ) :
    List.Chain' (fun a b => b = a + p) ((List.range n).map (fun k => s + k * p)) := by
  rw [List.chain'_iff_get]
  intro i h
  simp only [List.get_eq_getElem, List.getElem_map, List.getElem_range]
  ring

theorem grid_chain (trades : List Trade) (period : ℕ) :
    List.Chain' (fun a b => b = a + period) (grid trades period) := by
  match trades with
  | [] => simp [grid]
  | t :: rest => exact chain_range_map _ _ _

/-- C4: the analyzer's output timestamps are exactly the grid, strictly
increasing with constant step equal to the period (one point per grid
step), every count is nonnegative, and an empty trade list yields an empty
grid and empty output. -/
theorem parallelism_grid_monotonic :
    (∀ (trades : List Trade) (period : ℕ) (out : List (ℕ × ℕ)),
      0 < period → analyze_trade_parallelism trades period = .ok out →
      out.map Prod.fst = grid trades period ∧
      List.Chain' (fun a b => b = a + period) (out.map Prod.fst) ∧
      List.Pairwise (· < ·) (out.map Prod.fst) ∧
      ∀ pt ∈ out, 0 ≤ pt.2)
    ∧ (∀ period : ℕ,
        analyze_trade_parallelism [] period = .ok [] ∧ grid [] period = []) := by
  constructor
  · intro trades period out hp hok
    have hout : out = (grid trades period).map (fun ts => (ts, countOpen trades ts)) := by
      unfold analyze_trade_parallelism at hok
      split at hok
      · exact absurd hok (by simp)
      · simpa using hok.symm
    have hfst : out.map Prod.fst = grid trades period := by
      rw [hout, List.map_map]
      exact List.map_id _
    refine ⟨hfst, ?_, ?_, ?_⟩
    · rw [hfst]; exact grid_chain trades period
    · have hchain : List.Chain' (· < ·) (out.map Prod.fst) := by
        rw [hfst]
        exact (grid_chain trades period).imp (fun a b hab => by omega)
      exact List.chain'_iff_pairwise.mp hchain
    · intro pt _
      exact Nat.zero_le _
  · intro period
    exact ⟨rfl, rfl⟩

theorem parallelism_grid_monotonic_witness :
    (([(0, 1), (1, 1), (2, 0)] : List (ℕ × ℕ)).map Prod.fst =
        grid [⟨"A", 0, some 2, 0, 0, "r"⟩] 1) ∧
      List.Chain' (fun a b => b = a + 1)
        (([(0, 1), (1, 1), (2, 0)] : List (ℕ × ℕ)).map Prod.fst) ∧
      List.Pairwise (· < ·) (([(0, 1), (1, 1), (2, 0)] : List (ℕ × ℕ)).map Prod.fst) ∧
      ∀ pt ∈ ([(0, 1), (1, 1), (2, 0)] : List (ℕ × ℕ)), 0 ≤ pt.2 :=
  parallelism_grid_monotonic.1 [⟨"A", 0, some 2, 0, 0, "r"⟩] 1
    [(0, 1), (1, 1), (2, 0)] (by norm_num) rfl

/-- Modelled from the spec: the grouping key of the notebook's
`trades.groupby("pair")["sell_reason"].value_counts()` — the pair together
with the exit reason. -/
def tradeKey (t : Trade) : String × String := (t.pair, t.sell_reason)

/-- Lexicographic order on grouping keys: first by pair, then by reason. -/
def keyLE (a b : String × String) : Prop :=
  a.1 < b.1 ∨ (a.1 = b.1 ∧ a.2 ≤ b.2)

instance : DecidableRel keyLE := fun a b => by
  unfold keyLE
  infer_instance

instance : IsTotal (String × String) keyLE := by
  constructor
  intro a b
  rcases lt_trichotomy a.1 b.1 with h | h | h
  · exact Or.inl (Or.inl h)
  · rcases le_total a.2 b.2 with h2 | h2
    · exact Or.inl (Or.inr ⟨h, h2⟩)
    · exact Or.inr (Or.inr ⟨h.symm, h2⟩)
  · exact Or.inr (Or.inl h)

instance : IsTrans (String × String) keyLE := by
  constructor
  intro a b c hab hbc
  rcases hab with h1 | ⟨e1, l1⟩
  · rcases hbc with h2 | ⟨e2, _⟩
    · exact Or.inl (h1.trans h2)
    · exact Or.inl (e2 ▸ h1)
  · rcases hbc with h2 | ⟨e2, l2⟩
    · exact Or.inl (e1 ▸ h2)
    · exact Or.inr ⟨e1.trans e2, l1.trans l2⟩

instance : IsAntisymm (String × String) keyLE := by
  constructor
  intro a b hab hba
  rcases hab with h1 | ⟨e1, l1⟩
  · rcases hba with h2 | ⟨e2, _⟩
    · exact absurd (h1.trans h2) (lt_irrefl _)
    · exact absurd (e2 ▸ h1) (lt_irrefl _)
  · rcases hba with h2 | ⟨e2, l2⟩
    · exact absurd (e1 ▸ h2) (lt_irrefl _)
    · exact Prod.ext_iff.mpr ⟨e1, le_antisymm l1 l2⟩

/-- Modelled from the spec: GroupedTradeSummary — count the trades for
each (pair, exit reason) key, emitting the keys in deterministic
lexicographic order. -/
def groupedTradeSummary (trades : List Trade) : List ((String × String) × ℕ) :=
  (List.insertionSort keyLE ((trades.map tradeKey).dedup)).map
    (fun k => (k, (trades.map tradeKey).count k))

/-- C7: the grouped summary is deterministic — running it twice on the
same trade set gives identical output, and any reordering of the input
records gives identical ordered output. -/
theorem grouped_summary_deterministic (t₁ t₂ : List Trade) (h : t₁.Perm t₂) :
    groupedTradeSummary t₁ = groupedTradeSummary t₁ ∧
    groupedTradeSummary t₁ = groupedTradeSummary t₂ := by
  refine ⟨rfl, ?_⟩
  have hkeys : (t₁.map tradeKey).Perm (t₂.map tradeKey) := h.map tradeKey
  have hdedup : ((t₁.map tradeKey).dedup).Perm ((t₂.map tradeKey).dedup) :=
    hkeys.dedup
  have hsortperm :
      (List.insertionSort keyLE ((t₁.map tradeKey).dedup)).Perm
        (List.insertionSort keyLE ((t₂.map tradeKey).dedup)) :=
    ((List.perm_insertionSort keyLE _).trans hdedup).trans
      (List.perm_insertionSort keyLE _).symm
  have hsorted :
      List.insertionSort keyLE ((t₁.map tradeKey).dedup) =
        List.insertionSort keyLE ((t₂.map tradeKey).dedup) :=
    List.eq_of_perm_of_sorted hsortperm
      (List.sorted_insertionSort keyLE _) (List.sorted_insertionSort keyLE _)
  unfold groupedTradeSummary
  rw [hsorted]
  refine List.map_congr_left fun k _ => ?_
  exact congrArg (fun n => (k, n)) (hkeys.countP_eq _)

theorem grouped_summary_deterministic_witness :
    groupedTradeSummary
        [⟨"BTC/USDT", 0, some 1, 0, 0, "roi"⟩, ⟨"ETH/USDT", 0, some 1, 0, 0, "stop_loss"⟩] =
      groupedTradeSummary
        [⟨"ETH/USDT", 0, some 1, 0, 0, "stop_loss"⟩, ⟨"BTC/USDT", 0, some 1, 0, 0, "roi"⟩] :=
  (grouped_summary_deterministic _ _ (List.Perm.swap _ _ [])).2
